/-
Verification of the langGraph-chatbot front-end scripts.

The development shallowly embeds the observable logic of the three Streamlit
front-end scripts (`streamlit-frontend-threading.py`, `streamlit_frontend_tool.py`,
`streamlit_rag_frontend.py`):

* the chat-title function `get_human_readable_chat_name` (identical in all
  three scripts), together with embeddings of the Python string primitives it
  uses (`strip`, `replace`, `split`, `join`, `rfind`, slicing);
* the thread registry operation `add_thread`;
* the streaming render pipeline of one user turn (`ai_only_stream` /
  `st.write_stream` plus the status-holder bookkeeping and the final commit of
  the assistant message to `message_history`);
* the PDF upload / ingestion block of the RAG variant.

Python strings are modelled as `List Char`; machine-level aspects (UUID
generation, widget rendering) are abstracted: a thread id is an opaque value,
a rendered status box is a label together with a running/complete state.
-/
import Mathlib

/-! ## Data model -/

/-- A persisted LangChain message, as dispatched on by `isinstance` checks in
the scripts: `HumanMessage`, `AIMessage` or `ToolMessage`. -/
inductive Msg where
  | human (content : List Char)
  | ai (content : List Char)
  | tool (content : List Char)
deriving DecidableEq

/-! ## Embeddings of the Python string primitives -/

/-- The whitespace characters recognised by Python's `str.strip()` and
`str.split()` (ASCII part: space, tab, newline, carriage return, vertical
tab, form feed). -/
def isPySpace (c : Char) : Bool :=
  c == ' ' || c == '\t' || c == '\n' || c == '\r' ||
    c == Char.ofNat 11 || c == Char.ofNat 12

/-- Python `s.strip()`: remove leading and trailing whitespace. -/
def pyStrip (s : List Char) : List Char :=
  ((s.dropWhile isPySpace).reverse.dropWhile isPySpace).reverse

/-- Python `s.replace('\n', ' ')`. -/
def replaceNl (s : List Char) : List Char :=
  s.map fun c => if c = '\n' then ' ' else c

/-- Worker for Python `s.split()`: `acc` is the reversed current word. -/
def splitWsAux : List Char → List Char → List (List Char)
  | [], acc => if acc.isEmpty then [] else [acc.reverse]
  | c :: cs, acc =>
    if isPySpace c then
      if acc.isEmpty then splitWsAux cs [] else acc.reverse :: splitWsAux cs []
    else
      splitWsAux cs (c :: acc)

/-- Python `s.split()`: split on whitespace runs, dropping empty words. -/
def pySplit (s : List Char) : List (List Char) := splitWsAux s []

/-- Python `' '.join(words)`. -/
def joinSpace : List (List Char) → List Char
  | [] => []
  | [w] => w
  | w :: ws => w ++ ' ' :: joinSpace ws

/-- The clean-up block of `get_human_readable_chat_name`:
`name.strip()`, then `name.replace('\n', ' ')`, then `' '.join(name.split())`. -/
def cleanName (s : List Char) : List Char :=
  joinSpace (pySplit (replaceNl (pyStrip s)))

/-- Python `s.rfind(' ')` restricted to the found case: the index of the last
space of `s`, or `none` when `s` contains no space. -/
def lastSpacePos : List Char → Option Nat
  | [] => none
  | c :: cs =>
    match lastSpacePos cs with
    | some j => some (j + 1)
    | none => if c = ' ' then some 0 else none

/-! ## The title function (identical in the three scripts) -/

/-- The `"..."` marker appended by the truncation. -/
def ellipsisMark : List Char := "...".data

/-- The body of the `for msg in messages` loop of `get_human_readable_chat_name`
once the first `HumanMessage` is found: truncation, clean-up, empty fallback.
The `.getD 0` is unreachable filler: `rfind` is only consulted under the guard
`' ' in first_message[:30]`, which guarantees a hit. -/
def titleOfFirstHuman (first_message : List Char) : List Char :=
  let name :=
    if 30 < first_message.length then
      if ' ' ∈ first_message.take 30 then
        first_message.take ((lastSpacePos (first_message.take 30)).getD 0) ++ ellipsisMark
      else
        first_message.take 27 ++ ellipsisMark
    else first_message
  let cleaned := cleanName name
  if cleaned.isEmpty then "Chat Conversation".data else cleaned

/-- The `for msg in messages: if isinstance(msg, HumanMessage)` scan: content
of the first human message, if any. -/
def findFirstHuman : List Msg → Option (List Char)
  | [] => none
  | Msg.human c :: _ => some c
  | _ :: rest => findFirstHuman rest

/-- `get_human_readable_chat_name(thread_id, messages)`. The `thread_id`
argument is accepted and ignored, exactly as in the source. -/
def get_human_readable_chat_name (thread_id : Nat) (messages : List Msg) : List Char :=
  if messages.isEmpty then "New Chat".data
  else
    match findFirstHuman messages with
    | some first_message => titleOfFirstHuman first_message
    | none => "Chat Conversation".data

/-! ## Thread registry -/

/-- `add_thread(thread_id)`: append to `st.session_state['chat_threads']`
unless already present. The registry entry type is kept abstract (UUIDs in
the source), only equality is used. -/
def add_thread {α : Type} [DecidableEq α] (chat_threads : List α) (thread_id : α) : List α :=
  if thread_id ∈ chat_threads then chat_threads else chat_threads ++ [thread_id]

/-! ## Well-formedness predicates over displayed titles -/

/-- No two consecutive space characters occur. -/
def noDoubleSpace : List Char → Bool
  | c1 :: c2 :: rest => !(c1 == ' ' && c2 == ' ') && noDoubleSpace (c2 :: rest)
  | _ => true

/-- The first character, when present, is not whitespace. -/
def startsNonWs : List Char → Bool
  | [] => true
  | c :: _ => !isPySpace c

/-- The last character, when present, is not whitespace. -/
def endsNonWs : List Char → Bool
  | [] => true
  | [c] => !isPySpace c
  | _ :: c :: rest => endsNonWs (c :: rest)

/-- Every character is either a plain space or a non-whitespace character
(in particular no newline, tab or carriage return occurs). -/
def benignChars (s : List Char) : Bool :=
  s.all fun c => c == ' ' || !isPySpace c

/-! ## Streaming render pipeline (`streamlit_frontend_tool.py`, one user turn) -/

/-- One streamed chunk of `chatbot.stream(..., stream_mode="messages")`, as
dispatched on by the two `isinstance` checks of `ai_only_stream`: an
`AIMessage` fragment, a `ToolMessage` (whose `name` attribute may be absent —
`getattr(message_chunk, "name", "tool")`), or any other chunk kind. -/
inductive Chunk where
  | ai (content : List Char)
  | tool (toolName : Option (List Char)) (content : List Char)
  | other
deriving DecidableEq

/-- One event of the backend's event sequence for a turn: either a streamed
chunk, or the point at which the backend raises a failure. -/
inductive Event where
  | chunk (c : Chunk)
  | failure
deriving DecidableEq

/-- The state of the `st.status` widget: `running` while tools execute,
`complete` after finalization. -/
inductive BoxState where
  | running
  | complete
deriving DecidableEq

/-- The mutable state threaded through the streaming block: the status holder
(`status_holder["box"]`, here label plus widget state), a ghost counter of how
many times `st.status(...)` was called (indicator creations), and the text
accumulated so far by `st.write_stream`. -/
structure PipeState where
  box : Option (List Char × BoxState)
  creations : Nat
  acc : List Char
deriving DecidableEq

/-- The running label passed to `st.status`: the 🔧 marker, "Using", the
backquoted tool name and the trailing ellipsis character. -/
def toolLabel (tool_name : List Char) : List Char :=
  "🔧 Using `".data ++ tool_name ++ "` …".data

/-- The label `"✅ Tool finished"` of the finalization update. -/
def finishedLabel : List Char := "✅ Tool finished".data

/-- The per-chunk body of the `for message_chunk, metadata in chatbot.stream`
loop: a `ToolMessage` lazily creates, or updates, the single status box; an
`AIMessage` has its content yielded to (and appended by) `st.write_stream`;
anything else is skipped. -/
def stepChunk (s : PipeState) : Chunk → PipeState
  | Chunk.tool name? _ =>
    let tool_name := name?.getD "tool".data
    match s.box with
    | none =>
      { s with box := some (toolLabel tool_name, BoxState.running),
               creations := s.creations + 1 }
    | some _ => { s with box := some (toolLabel tool_name, BoxState.running) }
  | Chunk.ai content => { s with acc := s.acc ++ content }
  | Chunk.other => s

/-- Consume the event sequence in order. A `failure` event raises: the
exception propagates out of `st.write_stream`, carrying the UI state reached
so far (`Except.error`). -/
def runEvents : PipeState → List Event → Except PipeState PipeState
  | s, [] => Except.ok s
  | s, Event.failure :: _ => Except.error s
  | s, Event.chunk c :: rest => runEvents (stepChunk s c) rest

/-- Whether the event sequence completes without raising. -/
def streamCompletes : List Event → Bool
  | [] => true
  | Event.failure :: _ => false
  | Event.chunk _ :: rest => streamCompletes rest

/-- The in-order concatenation of the assistant-text fragments of a sequence
(the reference value the committed message is compared against). -/
def aiText : List Event → List Char
  | [] => []
  | Event.chunk (Chunk.ai c) :: rest => c ++ aiText rest
  | _ :: rest => aiText rest

/-- Whether the sequence contains at least one tool-invocation event. -/
def hasToolEvent : List Event → Bool
  | [] => false
  | Event.chunk (Chunk.tool _ _) :: _ => true
  | _ :: rest => hasToolEvent rest

/-- One entry of `st.session_state["message_history"]`:
`{"role": ..., "content": ...}`. -/
structure HistMsg where
  role : List Char
  content : List Char
deriving DecidableEq

/-- The user entry appended before streaming starts. -/
def userMsg (content : List Char) : HistMsg := ⟨"user".data, content⟩

/-- The assistant entry appended after the stream completes. -/
def assistantMsg (content : List Char) : HistMsg := ⟨"assistant".data, content⟩

/-- The post-stream finalization: `if status_holder["box"] is not None:
update(label="✅ Tool finished", state="complete", ...)`. -/
def finalizePipe (s : PipeState) : PipeState :=
  match s.box with
  | none => s
  | some _ => { s with box := some (finishedLabel, BoxState.complete) }

/-- The streaming block starts with no status box, no creations, empty text. -/
def initPipe : PipeState := ⟨none, 0, []⟩

/-- The observable outcome of one user turn: the transcript
(`message_history`) afterwards, the final status box, and how many status
indicators were created during the turn. -/
structure TurnResult where
  history : List HistMsg
  box : Option (List Char × BoxState)
  creations : Nat
deriving DecidableEq

/-- One user turn of `streamlit_frontend_tool.py`: append the user message,
run `st.write_stream(ai_only_stream())` over the event sequence, finalize the
status box, and append the accumulated assistant message — the last two steps
only when the sequence completed without raising. -/
def runTurn (history : List HistMsg) (user_input : List Char)
    (events : List Event) : TurnResult :=
  let h1 := history ++ [userMsg user_input]
  match runEvents initPipe events with
  | Except.error s => ⟨h1, s.box, s.creations⟩
  | Except.ok s =>
    let s2 := finalizePipe s
    ⟨h1 ++ [assistantMsg s2.acc], s2.box, s2.creations⟩

/-! ## PDF ingestion block (`streamlit_rag_frontend.py`) -/

/-- The summary returned by `ingest_pdf`, as read back by the sidebar:
`{filename, documents (pages), chunks}`. -/
structure DocSummary where
  filename : List Char
  documents : Nat
  chunks : Nat
deriving DecidableEq

/-- Lookup in the per-thread document map `thread_docs` (a Python dict whose
keys are unique; insertion order retained). -/
def lookupDoc : List (List Char × DocSummary) → List Char → Option DocSummary
  | [], _ => none
  | (k, v) :: rest, fname => if k = fname then some v else lookupDoc rest fname

/-- The observable outcome of one `uploaded_pdf` handler run: the per-thread
document map afterwards, the number of `ingest_pdf` invocations made, and
whether the handler finished without an exception. -/
structure UploadResult where
  docs : List (List Char × DocSummary)
  ingestCalls : Nat
  ok : Bool
deriving DecidableEq

/-- The `if uploaded_pdf:` block: if the filename is already in the thread's
document map, only an info banner is shown; otherwise `ingest_pdf` is invoked
and the map is written on success. The external collaborator is an oracle
`ingest_pdf(bytes, thread_id, filename)` whose `none` result models a raised
failure (which propagates before the map assignment runs). -/
def uploaded_pdf_block
    (ingest_pdf : List Nat → List Char → List Char → Option DocSummary)
    (thread_docs : List (List Char × DocSummary))
    (file_bytes : List Nat) (thread_key uploaded_name : List Char) : UploadResult :=
  match lookupDoc thread_docs uploaded_name with
  | some _ => ⟨thread_docs, 0, true⟩
  | none =>
    match ingest_pdf file_bytes thread_key uploaded_name with
    | none => ⟨thread_docs, 1, false⟩
    | some summary => ⟨thread_docs ++ [(uploaded_name, summary)], 1, true⟩

/-! ## Lemmas about the streaming pipeline -/

theorem finalizePipe_acc (s : PipeState) : (finalizePipe s).acc = s.acc := by
  cases hb : s.box <;> simp [finalizePipe, hb]

theorem finalizePipe_creations (s : PipeState) :
    (finalizePipe s).creations = s.creations := by
  cases hb : s.box <;> simp [finalizePipe, hb]

theorem runEvents_completes_ok :
    ∀ (es : List Event) (s : PipeState), streamCompletes es = true →
      ∃ t, runEvents s es = Except.ok t := by
  intro es
  induction es with
  | nil => intro s _; exact ⟨s, rfl⟩
  | cons e rest ih =>
    intro s hc
    cases e with
    | failure => simp [streamCompletes] at hc
    | chunk c => exact ih (stepChunk s c) (by simpa [streamCompletes] using hc)

theorem runEvents_fails_error :
    ∀ (es : List Event) (s : PipeState), streamCompletes es = false →
      ∃ t, runEvents s es = Except.error t := by
  intro es
  induction es with
  | nil => intro s hc; simp [streamCompletes] at hc
  | cons e rest ih =>
    intro s hc
    cases e with
    | failure => exact ⟨s, rfl⟩
    | chunk c => exact ih (stepChunk s c) (by simpa [streamCompletes] using hc)

theorem runEvents_ok_spec :
    ∀ (es : List Event) (s t : PipeState), runEvents s es = Except.ok t →
      t.acc = s.acc ++ aiText es ∧
      t.box.isSome = (s.box.isSome || hasToolEvent es) ∧
      t.creations = s.creations +
        (if s.box.isSome then 0 else if hasToolEvent es then 1 else 0) := by
  intro es
  induction es with
  | nil =>
    intro s t h
    simp only [runEvents, Except.ok.injEq] at h
    subst h
    simp [aiText, hasToolEvent]
  | cons e rest ih =>
    intro s t h
    cases e with
    | failure => simp [runEvents] at h
    | chunk c =>
      simp only [runEvents] at h
      obtain ⟨h1, h2, h3⟩ := ih (stepChunk s c) t h
      cases c with
      | ai content =>
        refine ⟨?_, ?_, ?_⟩
        · rw [h1]; simp [stepChunk, aiText]
        · rw [h2]; simp [stepChunk, hasToolEvent]
        · rw [h3]; simp [stepChunk, hasToolEvent]
      | other =>
        refine ⟨?_, ?_, ?_⟩
        · rw [h1]; simp [stepChunk, aiText]
        · rw [h2]; simp [stepChunk, hasToolEvent]
        · rw [h3]; simp [stepChunk, hasToolEvent]
      | tool name? content =>
        cases hb : s.box with
        | none =>
          refine ⟨?_, ?_, ?_⟩
          · rw [h1]; simp [stepChunk, hb, aiText]
          · rw [h2]; simp [stepChunk, hb, hasToolEvent]
          · rw [h3]; simp [stepChunk, hb, hasToolEvent]
        | some b =>
          refine ⟨?_, ?_, ?_⟩
          · rw [h1]; simp [stepChunk, hb, aiText]
          · rw [h2]; simp [stepChunk, hb, hasToolEvent]
          · rw [h3]; simp [stepChunk, hb, hasToolEvent]

/-- C1: all-or-nothing commit of a streamed turn — the assistant message is
appended to the transcript exactly when the event sequence completes without
raising; a sequence that raises leaves the transcript with the user message
only, so no partially accumulated assistant text is committed. -/
theorem c1_all_or_nothing_commit (history : List HistMsg) (user_input : List Char)
    (events : List Event) :
    (streamCompletes events = true →
      (runTurn history user_input events).history
        = history ++ [userMsg user_input, assistantMsg (aiText events)]) ∧
    (streamCompletes events = false →
      (runTurn history user_input events).history
        = history ++ [userMsg user_input]) := by
  constructor
  · intro hc
    obtain ⟨t, ht⟩ := runEvents_completes_ok events initPipe hc
    obtain ⟨hacc, -, -⟩ := runEvents_ok_spec events initPipe t ht
    simp only [runTurn, ht]
    rw [finalizePipe_acc, hacc]
    simp [initPipe]
  · intro hc
    obtain ⟨t, ht⟩ := runEvents_fails_error events initPipe hc
    simp [runTurn, ht]

theorem c1_all_or_nothing_commit_witness :
    (runTurn [] "hi".data [Event.chunk (Chunk.ai "par".data), Event.failure]).history
      = [] ++ [userMsg "hi".data] ∧
    (runTurn [] "hi".data [Event.chunk (Chunk.ai "ok".data)]).history
      = [] ++ [userMsg "hi".data, assistantMsg (aiText [Event.chunk (Chunk.ai "ok".data)])] :=
  ⟨(c1_all_or_nothing_commit [] "hi".data
      [Event.chunk (Chunk.ai "par".data), Event.failure]).2 (by decide),
   (c1_all_or_nothing_commit [] "hi".data
      [Event.chunk (Chunk.ai "ok".data)]).1 (by decide)⟩

/-- C2: at most one status indicator per turn — on a completing sequence, no
tool event means no indicator is ever created, while at least one tool event
means exactly one `st.status` creation happened and the single indicator ends
in the terminal complete state. -/
theorem c2_single_status_indicator (history : List HistMsg) (user_input : List Char)
    (events : List Event) (hc : streamCompletes events = true) :
    (hasToolEvent events = false →
      (runTurn history user_input events).creations = 0 ∧
      (runTurn history user_input events).box = none) ∧
    (hasToolEvent events = true →
      (runTurn history user_input events).creations = 1 ∧
      (runTurn history user_input events).box
        = some (finishedLabel, BoxState.complete)) := by
  obtain ⟨t, ht⟩ := runEvents_completes_ok events initPipe hc
  obtain ⟨-, hbox, hcre⟩ := runEvents_ok_spec events initPipe t ht
  have hbox' : t.box.isSome = hasToolEvent events := by simpa [initPipe] using hbox
  have hcre' : t.creations = if hasToolEvent events then 1 else 0 := by
    simpa [initPipe] using hcre
  have hrun : runTurn history user_input events
      = ⟨(history ++ [userMsg user_input]) ++ [assistantMsg (finalizePipe t).acc],
         (finalizePipe t).box, (finalizePipe t).creations⟩ := by
    simp [runTurn, ht]
  constructor
  · intro hnt
    have hbn : t.box = none := by
      cases hbt : t.box with
      | none => rfl
      | some b => rw [hbt, hnt] at hbox'; simp at hbox'
    rw [hrun]
    refine ⟨?_, ?_⟩
    · show (finalizePipe t).creations = 0
      rw [finalizePipe_creations, hcre', hnt]
      rfl
    · show (finalizePipe t).box = none
      simp [finalizePipe, hbn]
  · intro hyt
    obtain ⟨b, hbs⟩ : ∃ b, t.box = some b := by
      cases hbt : t.box with
      | none => rw [hbt, hyt] at hbox'; simp at hbox'
      | some b => exact ⟨b, rfl⟩
    rw [hrun]
    refine ⟨?_, ?_⟩
    · show (finalizePipe t).creations = 1
      rw [finalizePipe_creations, hcre', hyt]
      rfl
    · show (finalizePipe t).box = some (finishedLabel, BoxState.complete)
      simp [finalizePipe, hbs]

theorem c2_single_status_indicator_witness :
    (runTurn [] "hi".data
        [Event.chunk (Chunk.tool (some "search".data) "r1".data),
         Event.chunk (Chunk.tool (some "search".data) "r2".data)]).creations = 1 ∧
    (runTurn [] "hi".data
        [Event.chunk (Chunk.tool (some "search".data) "r1".data),
         Event.chunk (Chunk.tool (some "search".data) "r2".data)]).box
      = some (finishedLabel, BoxState.complete) :=
  (c2_single_status_indicator [] "hi".data
      [Event.chunk (Chunk.tool (some "search".data) "r1".data),
       Event.chunk (Chunk.tool (some "search".data) "r2".data)]
      (by decide)).2 (by decide)

/-- C3: the committed assistant message is the in-order concatenation of
exactly the assistant-text fragments — tool and other-tagged events contribute
nothing — and on the concrete sequence with fragments "Hel", "lo ", "world"
and no tool events, the committed content is "Hello world" with no status
indicator created. -/
theorem c3_committed_text_concat (history : List HistMsg) (user_input : List Char)
    (events : List Event) (hc : streamCompletes events = true) :
    ((runTurn history user_input events).history
      = history ++ [userMsg user_input, assistantMsg (aiText events)]) ∧
    (∀ name? content rest,
      aiText (Event.chunk (Chunk.tool name? content) :: rest) = aiText rest) ∧
    (∀ rest, aiText (Event.chunk Chunk.other :: rest) = aiText rest) ∧
    ((runTurn [] "hi".data
        [Event.chunk (Chunk.ai "Hel".data), Event.chunk (Chunk.ai "lo ".data),
         Event.chunk (Chunk.ai "world".data)]).history
      = [userMsg "hi".data, assistantMsg "Hello world".data] ∧
     (runTurn [] "hi".data
        [Event.chunk (Chunk.ai "Hel".data), Event.chunk (Chunk.ai "lo ".data),
         Event.chunk (Chunk.ai "world".data)]).creations = 0 ∧
     (runTurn [] "hi".data
        [Event.chunk (Chunk.ai "Hel".data), Event.chunk (Chunk.ai "lo ".data),
         Event.chunk (Chunk.ai "world".data)]).box = none) := by
  refine ⟨?_, ?_, ?_, by decide⟩
  · obtain ⟨t, ht⟩ := runEvents_completes_ok events initPipe hc
    obtain ⟨hacc, -, -⟩ := runEvents_ok_spec events initPipe t ht
    simp only [runTurn, ht]
    rw [finalizePipe_acc, hacc]
    simp [initPipe]
  · intro name? content rest; rfl
  · intro rest; rfl

theorem c3_committed_text_concat_witness :
    (runTurn [] "a".data [Event.chunk (Chunk.ai "xy".data)]).history
      = [] ++ [userMsg "a".data, assistantMsg (aiText [Event.chunk (Chunk.ai "xy".data)])] :=
  (c3_committed_text_concat [] "a".data [Event.chunk (Chunk.ai "xy".data)] (by decide)).1

/-! ## Lemmas about the ingestion block and the thread registry -/

theorem lookupDoc_append_self (docs : List (List Char × DocSummary))
    (fname : List Char) (s : DocSummary) (h : lookupDoc docs fname = none) :
    lookupDoc (docs ++ [(fname, s)]) fname = some s := by
  induction docs with
  | nil => simp [lookupDoc]
  | cons kv rest ih =>
    obtain ⟨k, v⟩ := kv
    by_cases hk : k = fname
    · simp [lookupDoc, hk] at h
    · have h' : lookupDoc rest fname = none := by simpa [lookupDoc, hk] using h
      simpa [lookupDoc, hk] using ih h'

/-- C8: document ingestion is idempotent per (thread, filename) at the UI
layer — a filename already present in the thread's document map causes zero
further `ingest_pdf` calls and keeps its cached summary; across two
submissions of the same file, provided the first handler run finished without
an exception, at most one external call is made; and the document map is
written only after a successful ingest call. -/
theorem c8_ingestion_idempotent
    (ingest_pdf : List Nat → List Char → List Char → Option DocSummary)
    (thread_docs : List (List Char × DocSummary))
    (file_bytes : List Nat) (thread_key uploaded_name : List Char) :
    (∀ s, lookupDoc thread_docs uploaded_name = some s →
      uploaded_pdf_block ingest_pdf thread_docs file_bytes thread_key uploaded_name
        = ⟨thread_docs, 0, true⟩ ∧
      lookupDoc (uploaded_pdf_block ingest_pdf thread_docs file_bytes thread_key
          uploaded_name).docs uploaded_name = some s) ∧
    ((uploaded_pdf_block ingest_pdf thread_docs file_bytes thread_key
        uploaded_name).ok = true →
      (uploaded_pdf_block ingest_pdf thread_docs file_bytes thread_key
          uploaded_name).ingestCalls +
        (uploaded_pdf_block ingest_pdf
          (uploaded_pdf_block ingest_pdf thread_docs file_bytes thread_key
            uploaded_name).docs
          file_bytes thread_key uploaded_name).ingestCalls ≤ 1) ∧
    ((uploaded_pdf_block ingest_pdf thread_docs file_bytes thread_key
        uploaded_name).ok = false →
      (uploaded_pdf_block ingest_pdf thread_docs file_bytes thread_key
          uploaded_name).docs = thread_docs) ∧
    (∀ s, lookupDoc thread_docs uploaded_name = none →
      ingest_pdf file_bytes thread_key uploaded_name = some s →
      (uploaded_pdf_block ingest_pdf thread_docs file_bytes thread_key
          uploaded_name).docs = thread_docs ++ [(uploaded_name, s)]) := by
  refine ⟨?_, ?_, ?_, ?_⟩
  · intro s hs
    constructor
    · simp [uploaded_pdf_block, hs]
    · simp [uploaded_pdf_block, hs]
  · intro hok
    cases hl : lookupDoc thread_docs uploaded_name with
    | some s =>
      simp [uploaded_pdf_block, hl]
    | none =>
      cases hi : ingest_pdf file_bytes thread_key uploaded_name with
      | none => simp [uploaded_pdf_block, hl, hi] at hok
      | some s =>
        have h2 : lookupDoc (thread_docs ++ [(uploaded_name, s)]) uploaded_name
            = some s := lookupDoc_append_self thread_docs uploaded_name s hl
        simp [uploaded_pdf_block, hl, hi, h2]
  · intro hfail
    cases hl : lookupDoc thread_docs uploaded_name with
    | some s => simp [uploaded_pdf_block, hl]
    | none =>
      cases hi : ingest_pdf file_bytes thread_key uploaded_name with
      | none => simp [uploaded_pdf_block, hl, hi]
      | some s => simp [uploaded_pdf_block, hl, hi] at hfail
  · intro s hl hi
    simp [uploaded_pdf_block, hl, hi]

theorem c8_ingestion_idempotent_witness :
    uploaded_pdf_block (fun _ _ f => some ⟨f, 1, 2⟩)
        [("a.pdf".data, ⟨"a.pdf".data, 1, 2⟩)] [] "t1".data "a.pdf".data
      = ⟨[("a.pdf".data, ⟨"a.pdf".data, 1, 2⟩)], 0, true⟩ ∧
    lookupDoc (uploaded_pdf_block (fun _ _ f => some ⟨f, 1, 2⟩)
        [("a.pdf".data, ⟨"a.pdf".data, 1, 2⟩)] [] "t1".data "a.pdf".data).docs
        "a.pdf".data
      = some ⟨"a.pdf".data, 1, 2⟩ :=
  (c8_ingestion_idempotent (fun _ _ f => some ⟨f, 1, 2⟩)
      [("a.pdf".data, ⟨"a.pdf".data, 1, 2⟩)] [] "t1".data "a.pdf".data).1
    ⟨"a.pdf".data, 1, 2⟩ (by decide)

/-- C9: thread registration is idempotent — registering an id already in the
registry leaves the member list unchanged, registering a fresh id appends it
once, and a second registration of the same id is a no-op. -/
theorem c9_add_thread_idempotent {α : Type} [DecidableEq α]
    (chat_threads : List α) (thread_id : α) :
    (thread_id ∈ chat_threads → add_thread chat_threads thread_id = chat_threads) ∧
    (thread_id ∉ chat_threads →
      add_thread chat_threads thread_id = chat_threads ++ [thread_id]) ∧
    add_thread (add_thread chat_threads thread_id) thread_id
      = add_thread chat_threads thread_id := by
  refine ⟨fun h => by simp [add_thread, h], fun h => by simp [add_thread, h], ?_⟩
  by_cases h : thread_id ∈ chat_threads
  · simp [add_thread, h]
  · simp [add_thread, h]

theorem c9_add_thread_idempotent_witness :
    add_thread [3] 3 = [3] ∧ add_thread [4] 3 = [4, 3] :=
  ⟨(c9_add_thread_idempotent [3] 3).1 (by decide),
   (c9_add_thread_idempotent [4] 3).2.1 (by decide)⟩

/-! ## Lemmas about `lastSpacePos` (the embedding of `rfind(' ')`) -/

theorem lastSpacePos_lt :
    ∀ {s : List Char} {j : Nat}, lastSpacePos s = some j → j < s.length := by
  intro s
  induction s with
  | nil => intro j h; simp [lastSpacePos] at h
  | cons c cs ih =>
    intro j h
    simp only [lastSpacePos] at h
    cases hcs : lastSpacePos cs with
    | some j' =>
      rw [hcs] at h
      simp only [Option.some.injEq] at h
      subst h
      exact Nat.succ_lt_succ (ih hcs)
    | none =>
      rw [hcs] at h
      have h2 : (if c = ' ' then some 0 else none) = some j := h
      by_cases hc : c = ' '
      · rw [if_pos hc] at h2
        injection h2 with h3
        rw [← h3]
        simp
      · rw [if_neg hc] at h2
        exact absurd h2 (by simp)

theorem lastSpacePos_get :
    ∀ {s : List Char} {j : Nat}, lastSpacePos s = some j → s.get? j = some ' ' := by
  intro s
  induction s with
  | nil => intro j h; simp [lastSpacePos] at h
  | cons c cs ih =>
    intro j h
    simp only [lastSpacePos] at h
    cases hcs : lastSpacePos cs with
    | some j' =>
      rw [hcs] at h
      simp only [Option.some.injEq] at h
      subst h
      exact ih hcs
    | none =>
      rw [hcs] at h
      have h2 : (if c = ' ' then some 0 else none) = some j := h
      by_cases hc : c = ' '
      · rw [if_pos hc] at h2
        injection h2 with h3
        rw [← h3]
        simp [hc]
      · rw [if_neg hc] at h2
        exact absurd h2 (by simp)

theorem lastSpacePos_none_spec :
    ∀ {s : List Char}, lastSpacePos s = none → ∀ k, s.get? k ≠ some ' ' := by
  intro s
  induction s with
  | nil => intro _ k; simp
  | cons c cs ih =>
    intro h k
    simp only [lastSpacePos] at h
    cases hcs : lastSpacePos cs with
    | some j' => rw [hcs] at h; simp at h
    | none =>
      rw [hcs] at h
      have h2 : (if c = ' ' then some 0 else none) = none := h
      by_cases hc : c = ' '
      · rw [if_pos hc] at h2
        exact absurd h2 (by simp)
      · cases k with
        | zero => simpa using fun hcc => hc hcc
        | succ k' => exact ih hcs k'

theorem lastSpacePos_last :
    ∀ {s : List Char} {j : Nat}, lastSpacePos s = some j →
      ∀ k, j < k → s.get? k ≠ some ' ' := by
  intro s
  induction s with
  | nil => intro j h; simp [lastSpacePos] at h
  | cons c cs ih =>
    intro j h k hk
    simp only [lastSpacePos] at h
    cases hcs : lastSpacePos cs with
    | some j' =>
      rw [hcs] at h
      simp only [Option.some.injEq] at h
      subst h
      cases k with
      | zero => omega
      | succ k' => exact ih hcs k' (Nat.lt_of_succ_lt_succ hk)
    | none =>
      rw [hcs] at h
      have h2 : (if c = ' ' then some 0 else none) = some j := h
      by_cases hc : c = ' '
      · rw [if_pos hc] at h2
        injection h2 with h3
        rw [← h3] at hk
        cases k with
        | zero => omega
        | succ k' => exact lastSpacePos_none_spec hcs k'
      · rw [if_neg hc] at h2
        exact absurd h2 (by simp)

theorem lastSpacePos_of_mem {s : List Char} (h : ' ' ∈ s) :
    ∃ j, lastSpacePos s = some j := by
  cases hls : lastSpacePos s with
  | some j => exact ⟨j, rfl⟩
  | none =>
    obtain ⟨n, hn⟩ := List.get?_of_mem h
    exact absurd hn (lastSpacePos_none_spec hls n)

/-! ## Lemmas about `cleanName` (the clean-up block) -/

theorem splitWsAux_eq_nil_iff :
    ∀ (s acc : List Char), splitWsAux s acc = [] ↔ (s.all isPySpace = true ∧ acc = []) := by
  intro s
  induction s with
  | nil =>
    intro acc
    cases acc with
    | nil => simp [splitWsAux]
    | cons a as => simp [splitWsAux]
  | cons c cs ih =>
    intro acc
    by_cases hc : isPySpace c = true
    · cases acc with
      | nil => simp [splitWsAux, hc, ih]
      | cons a as => simp [splitWsAux, hc]
    · simp [splitWsAux, hc, ih]

theorem isPySpace_replace (c : Char) :
    isPySpace (if c = '\n' then ' ' else c) = isPySpace c := by
  by_cases hc : c = '\n'
  · simp [hc, isPySpace]
  · simp [hc]

theorem all_isPySpace_replaceNl (t : List Char) :
    (replaceNl t).all isPySpace = t.all isPySpace := by
  induction t with
  | nil => rfl
  | cons c cs ih => simp [replaceNl, List.all_cons, isPySpace_replace] at ih ⊢; rw [ih]

theorem all_isPySpace_pyStrip (s : List Char) :
    (pyStrip s).all isPySpace = true ↔ s.all isPySpace = true := by
  constructor
  · intro h
    rw [List.all_eq_true] at h ⊢
    intro x hx
    rcases List.mem_append.mp
        ((List.takeWhile_append_dropWhile isPySpace s) ▸ hx) with htw | hdw
    · exact List.mem_takeWhile_imp htw
    · have hxr : x ∈ (s.dropWhile isPySpace).reverse := List.mem_reverse.mpr hdw
      rcases List.mem_append.mp
          ((List.takeWhile_append_dropWhile isPySpace
            (s.dropWhile isPySpace).reverse) ▸ hxr) with htw2 | hdw2
      · exact List.mem_takeWhile_imp htw2
      · exact h x (List.mem_reverse.mpr hdw2)
  · intro h
    rw [List.all_eq_true] at h ⊢
    intro x hx
    have hx1 : x ∈ s.dropWhile isPySpace := by
      have := (List.dropWhile_sublist
        (l := (s.dropWhile isPySpace).reverse) isPySpace).subset
          (List.mem_reverse.mp hx)
      exact List.mem_reverse.mp (by simpa using this)
    exact h x ((List.dropWhile_sublist isPySpace).subset hx1)

theorem joinSpace_eq_nil_of_words :
    ∀ (ws : List (List Char)), (∀ w ∈ ws, w ≠ []) → (joinSpace ws = [] ↔ ws = []) := by
  intro ws hw
  cases ws with
  | nil => simp [joinSpace]
  | cons w rest =>
    cases rest with
    | nil =>
      simp only [joinSpace]
      constructor
      · intro h; exact absurd h (hw w (by simp))
      · intro h; simp at h
    | cons v rest2 =>
      simp only [joinSpace]
      constructor
      · intro h
        exact absurd h (List.append_ne_nil_of_left_ne_nil (hw w (by simp)) _)
      · intro h; simp at h

theorem splitWsAux_words :
    ∀ (s acc : List Char), acc.all (fun c => !isPySpace c) = true →
      ∀ w ∈ splitWsAux s acc, w ≠ [] ∧ w.all (fun c => !isPySpace c) = true := by
  intro s
  induction s with
  | nil =>
    intro acc hacc w hw
    cases acc with
    | nil => simp [splitWsAux] at hw
    | cons a as =>
      have hw2 : w ∈ [(a :: as).reverse] := hw
      rw [List.mem_singleton] at hw2
      subst hw2
      constructor
      · simp
      · rw [List.all_eq_true] at hacc ⊢
        intro x hx
        exact hacc x (List.mem_reverse.mp hx)
  | cons c cs ih =>
    intro acc hacc w hw
    by_cases hc : isPySpace c = true
    · cases acc with
      | nil =>
        simp only [splitWsAux, hc, if_true, List.isEmpty_nil] at hw
        exact ih [] rfl w hw
      | cons a as =>
        simp only [splitWsAux, hc, if_true, List.isEmpty_cons, if_false] at hw
        rcases List.mem_cons.mp hw with hw1 | hw2
        · subst hw1
          constructor
          · simp
          · rw [List.all_eq_true] at hacc ⊢
            intro x hx
            exact hacc x (List.mem_reverse.mp hx)
        · exact ih [] rfl w hw2
    · simp only [splitWsAux, hc, if_false, Bool.if_false_left] at hw
      refine ih (c :: acc) ?_ w hw
      simp [hacc, hc]

theorem cleanName_eq_nil_iff (s : List Char) :
    cleanName s = [] ↔ s.all isPySpace = true := by
  unfold cleanName pySplit
  rw [joinSpace_eq_nil_of_words _
    (fun w hw => (splitWsAux_words _ [] rfl w hw).1)]
  rw [splitWsAux_eq_nil_iff]
  rw [all_isPySpace_replaceNl]
  rw [all_isPySpace_pyStrip]
  simp

theorem findFirstHuman_ne_nil {messages : List Msg} {m : List Char}
    (h : findFirstHuman messages = some m) : messages.isEmpty = false := by
  cases messages with
  | nil => simp [findFirstHuman] at h
  | cons _ _ => rfl

theorem title_eq_titleOfFirstHuman {thread_id : Nat} {messages : List Msg}
    {m : List Char} (h : findFirstHuman messages = some m) :
    get_human_readable_chat_name thread_id messages = titleOfFirstHuman m := by
  simp [get_human_readable_chat_name, findFirstHuman_ne_nil h, h]

theorem cleanName_append_ellipsis_not_empty (t : List Char) :
    ¬((cleanName (t ++ ellipsisMark)).isEmpty = true) := by
  rw [List.isEmpty_iff, cleanName_eq_nil_iff]
  intro hall
  rw [List.all_eq_true] at hall
  have hdot : ('.' : Char) ∈ t ++ ellipsisMark :=
    List.mem_append.mpr (Or.inr (by decide))
  exact absurd (hall '.' hdot) (by decide)

/-- C4 counterexample: on the first user message "Can you explain machine
learning concepts in simple terms for a beginner?" the title function does
not return "Can you explain machine learning..." — the last space within the
first 30 characters is at index 23, just after "machine". -/
theorem c4_ml_title_counterexample :
    (get_human_readable_chat_name 0
        [Msg.human "Can you explain machine learning concepts in simple terms for a beginner?".data]
      = "Can you explain machine learning...".data) = False :=
  eq_false (by decide)

/-- C4 (amended): for the first user message "Can you explain machine
learning concepts in simple terms for a beginner?", the title function
returns exactly "Can you explain machine..." (cut at the last space within
the first 30 characters, which is index 23, with the ellipsis appended). -/
theorem c4_ml_title_amended :
    get_human_readable_chat_name 0
        [Msg.human "Can you explain machine learning concepts in simple terms for a beginner?".data]
      = "Can you explain machine...".data := by decide

/-- C5: for every first user message longer than 30 characters, if a space
occurs among the first 30 characters then the title is the clean-up of the
prefix up to (excluding) the last such space with "..." appended; if no space
occurs there, the title is the clean-up of the first 27 characters with "..."
appended. -/
theorem c5_truncation_long_message (thread_id : Nat) (messages : List Msg)
    (m : List Char) (hfind : findFirstHuman messages = some m)
    (hlen : 30 < m.length) :
    (∀ j, j < 30 → m.get? j = some ' ' →
      (∀ k, k < 30 → j < k → m.get? k ≠ some ' ') →
      get_human_readable_chat_name thread_id messages
        = cleanName (m.take j ++ ellipsisMark)) ∧
    ((∀ i, i < 30 → m.get? i ≠ some ' ') →
      get_human_readable_chat_name thread_id messages
        = cleanName (m.take 27 ++ ellipsisMark)) := by
  have hlen30 : (m.take 30).length = 30 := by
    rw [List.length_take]; omega
  constructor
  · intro j hj30 hsp hmax
    have htk : (m.take 30).get? j = m.get? j := List.get?_take hj30
    have hmem : ' ' ∈ m.take 30 := List.get?_mem (htk.trans hsp)
    obtain ⟨j', hj'⟩ := lastSpacePos_of_mem hmem
    have hj'lt : j' < 30 := by
      have := lastSpacePos_lt hj'
      omega
    have hj'sp : m.get? j' = some ' ' := by
      rw [← List.get?_take hj'lt]
      exact lastSpacePos_get hj'
    have hjj : j' = j := by
      rcases Nat.lt_trichotomy j' j with hlt | heq | hgt
      · exact absurd (htk.trans hsp) (lastSpacePos_last hj' j hlt)
      · exact heq
      · exact absurd hj'sp (hmax j' hj'lt hgt)
    rw [title_eq_titleOfFirstHuman hfind]
    simp only [titleOfFirstHuman]
    rw [if_pos hlen, if_pos hmem, hj', hjj, Option.getD_some,
      if_neg (cleanName_append_ellipsis_not_empty (m.take j))]
  · intro hnosp
    have hnm : ' ' ∉ m.take 30 := by
      intro hmem
      obtain ⟨n, hn⟩ := List.get?_of_mem hmem
      have hn30 : n < 30 := by
        by_contra hge
        rw [List.get?_eq_none.mpr (by omega)] at hn
        exact Option.noConfusion hn
      rw [List.get?_take hn30] at hn
      exact absurd hn (hnosp n hn30)
    rw [title_eq_titleOfFirstHuman hfind]
    simp only [titleOfFirstHuman]
    rw [if_pos hlen, if_neg hnm,
      if_neg (cleanName_append_ellipsis_not_empty (m.take 27))]

theorem c5_truncation_long_message_witness :
    get_human_readable_chat_name 0
        [Msg.human "Can you explain machine learning concepts in simple terms for a beginner?".data]
      = cleanName (("Can you explain machine learning concepts in simple terms for a beginner?".data).take 23
          ++ ellipsisMark) ∧
    get_human_readable_chat_name 0
        [Msg.human "aaaaaaaaaaaaaaaaaaaaaaaaaaaaaaaaaaaaaaaa".data]
      = cleanName (("aaaaaaaaaaaaaaaaaaaaaaaaaaaaaaaaaaaaaaaa".data).take 27
          ++ ellipsisMark) :=
  ⟨(c5_truncation_long_message 0
      [Msg.human "Can you explain machine learning concepts in simple terms for a beginner?".data]
      "Can you explain machine learning concepts in simple terms for a beginner?".data
      rfl (by decide)).1 23 (by decide) (by decide) (by decide),
   (c5_truncation_long_message 0
      [Msg.human "aaaaaaaaaaaaaaaaaaaaaaaaaaaaaaaaaaaaaaaa".data]
      "aaaaaaaaaaaaaaaaaaaaaaaaaaaaaaaaaaaaaaaa".data
      rfl (by decide)).2 (by decide)⟩

/-- C6 counterexample: for the first user message "a  b" (length 4, at most
30), the title is not the trimmed message verbatim — the clean-up also
collapses the internal double space, returning "a b". -/
theorem c6_short_message_counterexample :
    (get_human_readable_chat_name 0 [Msg.human "a  b".data]
      = pyStrip "a  b".data) = False ∧
    get_human_readable_chat_name 0 [Msg.human "a  b".data] = "a b".data :=
  ⟨eq_false (by decide), by decide⟩

/-- C6 (amended): for every first user message of length at most 30, the
title is the whitespace-normalized message (trimmed, newlines replaced by
spaces, whitespace runs collapsed to single spaces), with no ellipsis
appended, falling back to "Chat Conversation" when the normalization is
empty. -/
theorem c6_short_message_amended (thread_id : Nat) (messages : List Msg)
    (m : List Char) (hfind : findFirstHuman messages = some m)
    (hlen : m.length ≤ 30) :
    get_human_readable_chat_name thread_id messages
      = if (cleanName m).isEmpty then "Chat Conversation".data else cleanName m := by
  rw [title_eq_titleOfFirstHuman hfind]
  simp only [titleOfFirstHuman]
  rw [if_neg (by omega : ¬(30 < m.length))]

theorem c6_short_message_amended_witness :
    get_human_readable_chat_name 0 [Msg.human "a  b".data]
      = if (cleanName "a  b".data).isEmpty then "Chat Conversation".data
        else cleanName "a  b".data :=
  c6_short_message_amended 0 [Msg.human "a  b".data] "a  b".data rfl (by decide)

/-- C7 counterexample: the message of 31 spaces normalizes to the empty
string, yet the title function does not return the fallback
"Chat Conversation" for it — the >30-characters branch appends "..." before
normalization, so the title is "...". -/
theorem c7_fallback_counterexample :
    cleanName (List.replicate 31 ' ') = [] ∧
    (get_human_readable_chat_name 0 [Msg.human (List.replicate 31 ' ')]
      = "Chat Conversation".data) = False ∧
    get_human_readable_chat_name 0 [Msg.human (List.replicate 31 ' ')]
      = "...".data :=
  ⟨by decide, eq_false (by decide), by decide⟩

/-- C7 (amended): an empty message sequence gives "New Chat"; a non-empty
sequence with no user message gives "Chat Conversation"; and a first user
message of length at most 30 whose normalization is empty also gives the
fallback "Chat Conversation" (for longer messages the appended ellipsis keeps
the normalized title non-empty). -/
theorem c7_fallback_amended (thread_id : Nat) (messages : List Msg) :
    (messages = [] →
      get_human_readable_chat_name thread_id messages = "New Chat".data) ∧
    (messages ≠ [] → findFirstHuman messages = none →
      get_human_readable_chat_name thread_id messages = "Chat Conversation".data) ∧
    (∀ m, findFirstHuman messages = some m → m.length ≤ 30 → cleanName m = [] →
      get_human_readable_chat_name thread_id messages = "Chat Conversation".data) := by
  refine ⟨?_, ?_, ?_⟩
  · intro h
    subst h
    rfl
  · intro hne hnone
    have hie : messages.isEmpty = false := by
      cases messages with
      | nil => exact absurd rfl hne
      | cons _ _ => rfl
    simp [get_human_readable_chat_name, hie, hnone]
  · intro m hfind hlen hcn
    rw [title_eq_titleOfFirstHuman hfind]
    simp only [titleOfFirstHuman]
    rw [if_neg (by omega : ¬(30 < m.length)),
      if_pos (by rw [List.isEmpty_iff]; exact hcn)]

theorem c7_fallback_amended_witness :
    get_human_readable_chat_name 0 [] = "New Chat".data ∧
    get_human_readable_chat_name 0 [Msg.ai "x".data] = "Chat Conversation".data ∧
    get_human_readable_chat_name 0 [Msg.human " ".data] = "Chat Conversation".data :=
  ⟨(c7_fallback_amended 0 []).1 rfl,
   (c7_fallback_amended 0 [Msg.ai "x".data]).2.1 (by decide) rfl,
   (c7_fallback_amended 0 [Msg.human " ".data]).2.2 " ".data rfl (by decide) (by decide)⟩

/-! ## Length bound and tidiness of `cleanName` output (for C10) -/

theorem joinSpace_cons_length (w : List Char) (ws : List (List Char)) :
    (joinSpace (w :: ws)).length ≤ w.length + 1 + (joinSpace ws).length := by
  cases ws with
  | nil => simp [joinSpace]
  | cons v rest =>
    simp [joinSpace, List.length_append]
    omega

theorem splitWsAux_join_length :
    ∀ (s acc : List Char), (joinSpace (splitWsAux s acc)).length ≤ s.length + acc.length := by
  intro s
  induction s with
  | nil =>
    intro acc
    cases acc with
    | nil => simp [splitWsAux, joinSpace]
    | cons a as => simp [splitWsAux, joinSpace]
  | cons c cs ih =>
    intro acc
    by_cases hc : isPySpace c = true
    · cases acc with
      | nil =>
        have heq : splitWsAux (c :: cs) [] = splitWsAux cs [] := by
          simp [splitWsAux, hc]
        rw [heq]
        have := ih []
        simp at this ⊢
        omega
      | cons a as =>
        have heq : splitWsAux (c :: cs) (a :: as)
            = (a :: as).reverse :: splitWsAux cs [] := by
          simp [splitWsAux, hc]
        rw [heq]
        have h1 := joinSpace_cons_length (a :: as).reverse (splitWsAux cs [])
        have h2 := ih []
        simp [List.length_reverse] at h1 h2 ⊢
        omega
    · have heq : splitWsAux (c :: cs) acc = splitWsAux cs (c :: acc) := by
        simp [splitWsAux, hc]
      rw [heq]
      have := ih (c :: acc)
      simp at this ⊢
      omega

theorem pyStrip_length_le (s : List Char) : (pyStrip s).length ≤ s.length :=
  calc ((s.dropWhile isPySpace).reverse.dropWhile isPySpace).reverse.length
      = ((s.dropWhile isPySpace).reverse.dropWhile isPySpace).length :=
        List.length_reverse _
    _ ≤ (s.dropWhile isPySpace).reverse.length :=
        (List.dropWhile_sublist _).length_le
    _ = (s.dropWhile isPySpace).length := List.length_reverse _
    _ ≤ s.length := (List.dropWhile_sublist _).length_le

theorem cleanName_length_le (s : List Char) : (cleanName s).length ≤ s.length := by
  unfold cleanName pySplit
  calc (joinSpace (splitWsAux (replaceNl (pyStrip s)) [])).length
      ≤ (replaceNl (pyStrip s)).length + [].length := splitWsAux_join_length _ []
    _ = (pyStrip s).length := by simp [replaceNl]
    _ ≤ s.length := pyStrip_length_le s

theorem nonws_no_space {w : List Char} (h : w.all (fun c => !isPySpace c) = true) :
    ∀ c ∈ w, (c == ' ') = false := by
  rw [List.all_eq_true] at h
  intro c hc
  cases hsp : (c == ' ') with
  | false => rfl
  | true =>
    have hce : c = ' ' := by simpa using hsp
    subst hce
    exact absurd (h ' ' hc) (by decide)

theorem nds_cons_of_head {a : Char} {l : List Char} (ha : (a == ' ') = false)
    (hl : noDoubleSpace l = true) : noDoubleSpace (a :: l) = true := by
  cases l with
  | nil => rfl
  | cons b r => simp [noDoubleSpace, ha, hl]

theorem nds_append_nonws {w x : List Char} (hw : ∀ c ∈ w, (c == ' ') = false)
    (hx : noDoubleSpace x = true) : noDoubleSpace (w ++ x) = true := by
  induction w with
  | nil => simpa using hx
  | cons a w' ih =>
    rw [List.cons_append]
    exact nds_cons_of_head (hw a (by simp))
      (ih fun c hc => hw c (by simp [hc]))

theorem nds_cons_space {t : List Char} (hs : startsNonWs t = true)
    (ht : noDoubleSpace t = true) : noDoubleSpace (' ' :: t) = true := by
  cases t with
  | nil => rfl
  | cons b r =>
    have hb : (b == ' ') = false := by
      cases hsp : (b == ' ') with
      | false => rfl
      | true =>
        have hbe : b = ' ' := by simpa using hsp
        subst hbe
        simp [startsNonWs, isPySpace] at hs
    simp [noDoubleSpace, hb, ht]

theorem nds_of_all_nonws {w : List Char} (h : w.all (fun c => !isPySpace c) = true) :
    noDoubleSpace w = true := by
  induction w with
  | nil => rfl
  | cons a w' ih =>
    have h' : w'.all (fun c => !isPySpace c) = true := by
      rw [List.all_eq_true] at h ⊢
      exact fun c hc => h c (by simp [hc])
    exact nds_cons_of_head (nonws_no_space h a (by simp)) (ih h')

theorem starts_of_all_nonws {w : List Char} (hne : w ≠ [])
    (h : w.all (fun c => !isPySpace c) = true) : startsNonWs w = true := by
  cases w with
  | nil => exact absurd rfl hne
  | cons a w' =>
    rw [List.all_eq_true] at h
    simpa [startsNonWs] using h a (by simp)

theorem ends_of_all_nonws {w : List Char} (h : w.all (fun c => !isPySpace c) = true) :
    endsNonWs w = true := by
  induction w with
  | nil => rfl
  | cons a w' ih =>
    cases w' with
    | nil =>
      rw [List.all_eq_true] at h
      simpa [endsNonWs] using h a (by simp)
    | cons b r =>
      have h' : (b :: r).all (fun c => !isPySpace c) = true := by
        rw [List.all_eq_true] at h ⊢
        exact fun c hc => h c (by simp at hc ⊢; tauto)
      exact ih h'

theorem startsNonWs_append (w x : List Char) (hw : w ≠ []) :
    startsNonWs (w ++ x) = startsNonWs w := by
  cases w with
  | nil => exact absurd rfl hw
  | cons a w' => rfl

theorem endsNonWs_append (w : List Char) :
    ∀ x : List Char, x ≠ [] → endsNonWs (w ++ x) = endsNonWs x := by
  induction w with
  | nil => intro x _; rfl
  | cons a w' ih =>
    intro x hx
    cases hwx : w' ++ x with
    | nil =>
      rcases List.append_eq_nil.mp hwx with ⟨-, hx0⟩
      exact absurd hx0 hx
    | cons c rest =>
      calc endsNonWs ((a :: w') ++ x) = endsNonWs (a :: c :: rest) := by
            rw [List.cons_append, hwx]
        _ = endsNonWs (c :: rest) := rfl
        _ = endsNonWs (w' ++ x) := by rw [hwx]
        _ = endsNonWs x := ih x hx

theorem joinSpace_tidy :
    ∀ ws : List (List Char),
      (∀ w ∈ ws, w ≠ [] ∧ w.all (fun c => !isPySpace c) = true) →
      benignChars (joinSpace ws) = true ∧ noDoubleSpace (joinSpace ws) = true ∧
      startsNonWs (joinSpace ws) = true ∧ endsNonWs (joinSpace ws) = true := by
  intro ws
  induction ws with
  | nil => intro _; exact ⟨rfl, rfl, rfl, rfl⟩
  | cons w rest ih =>
    intro hws
    obtain ⟨hwne, hwall⟩ := hws w (by simp)
    cases rest with
    | nil =>
      refine ⟨?_, nds_of_all_nonws hwall, starts_of_all_nonws hwne hwall,
        ends_of_all_nonws hwall⟩
      show w.all (fun c => c == ' ' || !isPySpace c) = true
      rw [List.all_eq_true] at hwall ⊢
      intro c hc
      simp [hwall c hc]
    | cons v rest2 =>
      have hsub : ∀ u ∈ v :: rest2, u ≠ [] ∧ u.all (fun c => !isPySpace c) = true :=
        fun u hu => hws u (by simp [hu])
      obtain ⟨hb, hn, hs, he⟩ := ih hsub
      have htne : joinSpace (v :: rest2) ≠ [] := by
        intro h0
        rw [joinSpace_eq_nil_of_words _ (fun u hu => (hsub u hu).1)] at h0
        simp at h0
      have hjoin : joinSpace (w :: v :: rest2) = w ++ ' ' :: joinSpace (v :: rest2) := rfl
      rw [hjoin]
      refine ⟨?_, ?_, ?_, ?_⟩
      · simp only [benignChars, List.all_append, List.all_cons, Bool.and_eq_true]
        refine ⟨?_, by decide, hb⟩
        rw [List.all_eq_true] at hwall ⊢
        intro c hc
        simp [hwall c hc]
      · exact nds_append_nonws (nonws_no_space hwall) (nds_cons_space hs hn)
      · rw [startsNonWs_append w _ hwne]
        exact starts_of_all_nonws hwne hwall
      · rw [endsNonWs_append w _ (by simp)]
        cases ht : joinSpace (v :: rest2) with
        | nil => exact absurd ht htne
        | cons c r =>
          show endsNonWs (' ' :: c :: r) = true
          rw [ht] at he
          exact he

theorem cleanName_tidy (s : List Char) :
    benignChars (cleanName s) = true ∧ noDoubleSpace (cleanName s) = true ∧
    startsNonWs (cleanName s) = true ∧ endsNonWs (cleanName s) = true :=
  joinSpace_tidy _ (splitWsAux_words _ [] rfl)

theorem no_newline_of_benign {r : List Char} (h : benignChars r = true) :
    r.all (fun c => c != '\n') = true := by
  rw [benignChars, List.all_eq_true] at h
  rw [List.all_eq_true]
  intro c hc
  have hb := h c hc
  by_cases hcn : c = '\n'
  · subst hcn
    exact absurd hb (by decide)
  · simpa using hcn

theorem titleCore (name : List Char) (hlen : name.length ≤ 32) :
    (if (cleanName name).isEmpty = true then "Chat Conversation".data
      else cleanName name).length ≤ 32 ∧
    (if (cleanName name).isEmpty = true then "Chat Conversation".data
      else cleanName name).all (fun c => c != '\n') = true ∧
    startsNonWs (if (cleanName name).isEmpty = true then "Chat Conversation".data
      else cleanName name) = true ∧
    endsNonWs (if (cleanName name).isEmpty = true then "Chat Conversation".data
      else cleanName name) = true ∧
    noDoubleSpace (if (cleanName name).isEmpty = true then "Chat Conversation".data
      else cleanName name) = true ∧
    (if (cleanName name).isEmpty = true then "Chat Conversation".data
      else cleanName name).isEmpty = false := by
  by_cases he : (cleanName name).isEmpty = true
  · rw [if_pos he]
    exact ⟨by decide, by decide, by decide, by decide, by decide, by decide⟩
  · rw [if_neg he]
    obtain ⟨hb, hn, hs, hend⟩ := cleanName_tidy name
    exact ⟨le_trans (cleanName_length_le name) hlen, no_newline_of_benign hb,
      hs, hend, hn, by simpa using he⟩

theorem titleOfFirstHuman_wellformed (m : List Char) :
    (titleOfFirstHuman m).length ≤ 32 ∧
    (titleOfFirstHuman m).all (fun c => c != '\n') = true ∧
    startsNonWs (titleOfFirstHuman m) = true ∧
    endsNonWs (titleOfFirstHuman m) = true ∧
    noDoubleSpace (titleOfFirstHuman m) = true ∧
    (titleOfFirstHuman m).isEmpty = false := by
  by_cases h30 : 30 < m.length
  · by_cases hsp : ' ' ∈ m.take 30
    · have heq : titleOfFirstHuman m
          = (if (cleanName (m.take ((lastSpacePos (m.take 30)).getD 0)
                  ++ ellipsisMark)).isEmpty = true
             then "Chat Conversation".data
             else cleanName (m.take ((lastSpacePos (m.take 30)).getD 0)
                  ++ ellipsisMark)) := by
        simp only [titleOfFirstHuman]
        rw [if_pos h30, if_pos hsp]
      rw [heq]
      apply titleCore
      obtain ⟨j, hj⟩ := lastSpacePos_of_mem hsp
      have hjlt : j < 30 := by
        have := lastSpacePos_lt hj
        rw [List.length_take] at this
        omega
      rw [hj, Option.getD_some, List.length_append, List.length_take]
      have hell : ellipsisMark.length = 3 := by decide
      have hmin : min j m.length ≤ j := min_le_left _ _
      omega
    · have heq : titleOfFirstHuman m
          = (if (cleanName (m.take 27 ++ ellipsisMark)).isEmpty = true
             then "Chat Conversation".data
             else cleanName (m.take 27 ++ ellipsisMark)) := by
        simp only [titleOfFirstHuman]
        rw [if_pos h30, if_neg hsp]
      rw [heq]
      apply titleCore
      rw [List.length_append, List.length_take]
      have hell : ellipsisMark.length = 3 := by decide
      have hmin : min 27 m.length ≤ 27 := min_le_left _ _
      omega
  · have heq : titleOfFirstHuman m
        = (if (cleanName m).isEmpty = true then "Chat Conversation".data
           else cleanName m) := by
      simp only [titleOfFirstHuman]
      rw [if_neg h30]
    rw [heq]
    apply titleCore
    omega

theorem title_result_cases (thread_id : Nat) (messages : List Msg) :
    get_human_readable_chat_name thread_id messages = "New Chat".data ∨
    get_human_readable_chat_name thread_id messages = "Chat Conversation".data ∨
    ∃ m, findFirstHuman messages = some m ∧
      get_human_readable_chat_name thread_id messages = titleOfFirstHuman m := by
  cases messages with
  | nil => exact Or.inl rfl
  | cons m0 rest =>
    cases hf : findFirstHuman (m0 :: rest) with
    | none =>
      exact Or.inr (Or.inl (by simp [get_human_readable_chat_name, hf]))
    | some m =>
      exact Or.inr (Or.inr ⟨m, rfl, title_eq_titleOfFirstHuman hf⟩)

/-- C10: every returned title is well formed — at most 32 characters long,
free of newlines, without leading or trailing whitespace, without two
consecutive spaces, never empty, and independent of the thread-id argument. -/
theorem c10_title_wellformed (thread_id : Nat) (messages : List Msg) :
    (get_human_readable_chat_name thread_id messages).length ≤ 32 ∧
    (get_human_readable_chat_name thread_id messages).all (fun c => c != '\n') = true ∧
    startsNonWs (get_human_readable_chat_name thread_id messages) = true ∧
    endsNonWs (get_human_readable_chat_name thread_id messages) = true ∧
    noDoubleSpace (get_human_readable_chat_name thread_id messages) = true ∧
    (get_human_readable_chat_name thread_id messages).isEmpty = false ∧
    (∀ thread_id2 : Nat, get_human_readable_chat_name thread_id2 messages
      = get_human_readable_chat_name thread_id messages) := by
  have hmain : (get_human_readable_chat_name thread_id messages).length ≤ 32 ∧
      (get_human_readable_chat_name thread_id messages).all (fun c => c != '\n') = true ∧
      startsNonWs (get_human_readable_chat_name thread_id messages) = true ∧
      endsNonWs (get_human_readable_chat_name thread_id messages) = true ∧
      noDoubleSpace (get_human_readable_chat_name thread_id messages) = true ∧
      (get_human_readable_chat_name thread_id messages).isEmpty = false := by
    rcases title_result_cases thread_id messages with h | h | ⟨m, -, h⟩ <;> rw [h]
    · exact ⟨by decide, by decide, by decide, by decide, by decide, by decide⟩
    · exact ⟨by decide, by decide, by decide, by decide, by decide, by decide⟩
    · exact titleOfFirstHuman_wellformed m
  exact ⟨hmain.1, hmain.2.1, hmain.2.2.1, hmain.2.2.2.1, hmain.2.2.2.2.1,
    hmain.2.2.2.2.2, fun _ => rfl⟩
